import Mathlib

/-!
Verification development for the fixed-size-vector repository.

Shallow embedding of `src/error.rs`, `src/array_queue.rs` and `src/array_vec.rs`.

Modelling conventions:
* A Rust backing array `[T; N]` is modelled as a total map `Nat → Option T`
  together with an explicit capacity field `cap` (the static `N`); a slot
  holding `none` models uninitialized memory, a slot holding `some x` models a
  live value `x`.  `std::mem::uninitialized()` is `none`; writing a slot with
  `forget(replace(slot, v))` is `Function.update` at that slot (the old content
  is forgotten, i.e. not destroyed); `replace(slot, uninitialized())` reads the
  slot's content (possibly `none`, an uninitialized read, which is undefined
  behaviour in the source) and updates the slot to `none`.
* `usize` is modelled as `Nat`; the one place where `usize` underflow/overflow
  is reachable (the read-only iterator's cursor arithmetic) uses explicit
  wrapping arithmetic modulo `2 ^ 64`, matching release-mode Rust.
* A Rust method `fn f(&mut self, ...) -> R` is modelled as a function
  `State → ... → R × State` returning the result together with the new state.
-/

namespace FixedSizeVector

/-- CapacityError from `src/error.rs`: a single-variant marker type. -/
inductive CapacityError
  | mk
deriving DecidableEq

/-- Width of `usize` (64-bit targets). -/
def USIZE : Nat := 2 ^ 64

/-- ArrayQueue from `src/array_queue.rs`: `array` is the `ManuallyDrop<A>`
backing storage of static capacity `cap`, `start` and `length` are the
`usize` fields. -/
structure ArrayQueue (α : Type) where
  cap : Nat
  array : Nat → Option α
  start : Nat
  length : Nat

namespace ArrayQueue

variable {α : Type}

/-- Source `ArrayQueue::new`: all slots uninitialized, `start = 0`,
`length = 0`. -/
def new (n : Nat) : ArrayQueue α :=
  { cap := n, array := fun _ => none, start := 0, length := 0 }

/-- Source `ArrayQueue::capacity` = `A::capacity()`, the static `N`. -/
def capacity (q : ArrayQueue α) : Nat := q.cap

/-- Source `ArrayQueue::len`. -/
def len (q : ArrayQueue α) : Nat := q.length

/-- Source `ArrayQueue::is_empty`: `self.len() == 0`. -/
def is_empty (q : ArrayQueue α) : Bool := q.len == 0

/-- Source `ArrayQueue::is_full`: `self.len() == Self::capacity()`. -/
def is_full (q : ArrayQueue α) : Bool := q.len == q.capacity

/-- Source `ArrayQueue::index`: `(self.start + i) % Self::capacity()`. -/
def index (q : ArrayQueue α) (i : Nat) : Nat := (q.start + i) % q.capacity

/-- Source `ArrayQueue::element`: `None` when empty, otherwise the slot at
`self.index(i)` (the slot content is an `Option α`: `none` would be a read of
uninitialized memory). -/
def element (q : ArrayQueue α) (i : Nat) : Option (Option α) :=
  if q.is_empty then none else some (q.array (q.index i))

/-- Source `ArrayQueue::first`: `self.element(0)`. -/
def first (q : ArrayQueue α) : Option (Option α) := q.element 0

/-- Source `ArrayQueue::last`: `None` when empty, otherwise
`self.element(self.length - 1)`. -/
def last (q : ArrayQueue α) : Option (Option α) :=
  if q.is_empty then none else q.element (q.length - 1)

/-- Source `ArrayQueue::push_back`: rejects when full; otherwise writes the
clone of `x` into slot `self.index(self.length)` with
`forget(replace(...))` (the previous slot content is forgotten, not
destroyed) and increments `length`. -/
def push_back (q : ArrayQueue α) (x : α) : Except CapacityError Unit × ArrayQueue α :=
  if q.is_full then (Except.error CapacityError.mk, q)
  else
    let i := q.index q.length
    (Except.ok (),
      { q with array := Function.update q.array i (some x), length := q.length + 1 })

/-- Source `ArrayQueue::push_front`: rejects when full; otherwise sets
`start` to `self.index(Self::capacity() - 1)`, writes the clone of `x` into
that slot with `forget(replace(...))` and increments `length`.  The
expression `Self::capacity() - 1` is only evaluated when the buffer is not
full, hence `capacity > length ≥ 0` there; `Nat` truncated subtraction agrees
with `usize` subtraction on that path. -/
def push_front (q : ArrayQueue α) (x : α) : Except CapacityError Unit × ArrayQueue α :=
  if q.is_full then (Except.error CapacityError.mk, q)
  else
    let s := q.index (q.capacity - 1)
    (Except.ok (),
      { q with array := Function.update q.array s (some x), start := s,
               length := q.length + 1 })

/-- Source `ArrayQueue::pop_back`: returns `None` when empty; otherwise moves
the content of physical slot `self.length - 1` out (note: the source indexes
the backing array directly with `self.length - 1`, it does NOT go through
`self.index`), marks that slot uninitialized and decrements `length`.  The
moved content is an `Option α`; `some none` models moving out of an
uninitialized slot (undefined behaviour in the source). -/
def pop_back (q : ArrayQueue α) : Option (Option α) × ArrayQueue α :=
  if q.is_empty then (none, q)
  else
    let x := q.array (q.length - 1)
    (some x,
      { q with array := Function.update q.array (q.length - 1) none,
               length := q.length - 1 })

/-- Source `ArrayQueue::pop_front`: returns `None` when empty; otherwise moves
the content of physical slot `self.start` out, marks it uninitialized, sets
`start` to `self.index(1) = (start + 1) % capacity` and decrements
`length`. -/
def pop_front (q : ArrayQueue α) : Option (Option α) × ArrayQueue α :=
  if q.is_empty then (none, q)
  else
    let x := q.array q.start
    (some x,
      { q with array := Function.update q.array q.start none,
               start := (q.start + 1) % q.capacity,
               length := q.length - 1 })

end ArrayQueue

/-- Read-only iterator state from `src/array_queue.rs`
(`ArrayQueueIterator`): the two `usize` cursors. -/
structure ArrayQueueIterator where
  first : Nat
  last : Nat

namespace ArrayQueue

variable {α : Type}

/-- Source `<&ArrayQueue as IntoIterator>::into_iter`: `first = 0`,
`last = self.len() - 1` computed in `usize`.  When `len() = 0` the
subtraction underflows (a panic in debug builds); the wrapping model
`(len + 2 ^ 64 - 1) % 2 ^ 64` matches release-mode Rust. -/
def into_iter (q : ArrayQueue α) : ArrayQueueIterator :=
  { first := 0, last := (q.len + (USIZE - 1)) % USIZE }

end ArrayQueue

/-- Source `ArrayQueueIterator::exhausted`: `self.first > self.last`. -/
def ArrayQueueIterator.exhausted (it : ArrayQueueIterator) : Bool :=
  decide (it.last < it.first)

namespace ArrayQueue

variable {α : Type}

/-- Source `ArrayQueueIterator::next`: yields the slot at
`self.queue.index(self.first)` and increments `first` (wrapping `usize`
increment). -/
def iter_next (q : ArrayQueue α) (it : ArrayQueueIterator) :
    Option (Option α) × ArrayQueueIterator :=
  if it.exhausted then (none, it)
  else (some (q.array (q.index it.first)),
        { it with first := (it.first + 1) % USIZE })

/-- Source `ArrayQueueIterator::next_back`: yields the slot at
`self.queue.index(self.last)` and decrements `last` in `usize`; when
`last = 0` the decrement underflows (panic in debug builds), modelled by the
wrapping subtraction. -/
def iter_next_back (q : ArrayQueue α) (it : ArrayQueueIterator) :
    Option (Option α) × ArrayQueueIterator :=
  if it.exhausted then (none, it)
  else (some (q.array (q.index it.last)),
        { it with last := (it.last + (USIZE - 1)) % USIZE })

/-- Source `ArrayQueueMutIterator::next`: stops when the cursor `first`
equals `length`, otherwise yields an exclusive reference to the slot at
`self.queue.index(self.first)` and increments the cursor.  The yielded value
is modelled by the physical index the reference points to. -/
def mut_iter_next (q : ArrayQueue α) (cursor : Nat) : Option Nat × Nat :=
  if cursor == q.length then (none, cursor)
  else (some (q.index cursor), cursor + 1)

/-- Full traversal of the mutable iterator: the list of physical indices of
the yielded references, driven by `mut_iter_next` from a cursor.  The source
loop stops when `next` returns `None`, which happens after exactly
`length - cursor` yields; the `fuel` argument realizes that bound. -/
def mut_iter_run (q : ArrayQueue α) : Nat → Nat → List Nat
  | 0, _ => []
  | fuel + 1, cursor =>
    match q.mut_iter_next cursor with
    | (none, _) => []
    | (some i, c2) => i :: q.mut_iter_run fuel c2

/-- Source `<ArrayQueue as Drop>::drop`: iterates the mutable iterator and
destroys `replace(x, uninitialized())` for every yielded reference.  The
destroyed values are the contents of the slots visited by the traversal
(`drop` visits pairwise distinct slots for every state with
`length ≤ capacity`, see `window_map_nodup`, so reading them against the
pre-drop array is faithful).  A destroyed `none` would be a drop of
uninitialized memory. -/
def drop_destroyed (q : ArrayQueue α) : List (Option α) :=
  (q.mut_iter_run q.length 0).map q.array

end ArrayQueue

/-- ArrayVec from `src/array_vec.rs`: the backing storage `A` is
default-initialized, so slots always hold plain values. -/
structure ArrayVec (α : Type) where
  cap : Nat
  array : Nat → α
  start : Nat
  length : Nat

namespace ArrayVec

variable {α : Type}

/-- Source `ArrayVec::new`: `array: Default::default()` (every slot holds the
default value `d`), `start = 0`, `length = 0`. -/
def new (n : Nat) (d : α) : ArrayVec α :=
  { cap := n, array := fun _ => d, start := 0, length := 0 }

/-- Source `ArrayVec::capacity`: `self.array.as_ref().len()`, the static
array length. -/
def capacity (v : ArrayVec α) : Nat := v.cap

/-- Source `ArrayVec::len`. -/
def len (v : ArrayVec α) : Nat := v.length

/-- Source `ArrayVec::is_empty`. -/
def is_empty (v : ArrayVec α) : Bool := v.len == 0

/-- Source `ArrayVec::is_full`. -/
def is_full (v : ArrayVec α) : Bool := v.len == v.capacity

/-- Source `ArrayVec::index`: `(self.start + i) % self.capacity()`. -/
def index (v : ArrayVec α) (i : Nat) : Nat := (v.start + i) % v.capacity

/-- Source `ArrayVec::push`: rejects when `length == capacity`; otherwise
assigns the clone of `x` to slot `self.index(self.length)` and increments
`length`. -/
def push (v : ArrayVec α) (x : α) : Except CapacityError Unit × ArrayVec α :=
  if v.length == v.capacity then (Except.error CapacityError.mk, v)
  else
    let i := v.index v.length
    (Except.ok (),
      { v with array := Function.update v.array i x, length := v.length + 1 })

/-- Source `ArrayVec::pop_front`: returns `None` when empty; otherwise swaps
the default value `d` into slot `self.start`, returns the old content, sets
`start` to `self.index(1)` and decrements `length`. -/
def pop_front (v : ArrayVec α) (d : α) : Option α × ArrayVec α :=
  if v.length == 0 then (none, v)
  else
    let x := v.array v.start
    (some x,
      { v with array := Function.update v.array v.start d,
               start := (v.start + 1) % v.capacity,
               length := v.length - 1 })

/-- Source `ArrayVecMutIterator::next`: stops when the cursor equals
`length`, otherwise yields an exclusive reference to the slot at
`self.vec.index(self.current)` (modelled by its physical index) and
increments the cursor. -/
def mut_iter_next (v : ArrayVec α) (cursor : Nat) : Option Nat × Nat :=
  if cursor == v.length then (none, cursor)
  else (some (v.index cursor), cursor + 1)

/-- Full traversal of the ArrayVec mutable iterator, as for the queue. -/
def mut_iter_run (v : ArrayVec α) : Nat → Nat → List Nat
  | 0, _ => []
  | fuel + 1, cursor =>
    match v.mut_iter_next cursor with
    | (none, _) => []
    | (some i, c2) => i :: v.mut_iter_run fuel c2

end ArrayVec

/-!  Live-slot invariant of the spec (data-model section): the slots holding
live values are exactly the window `(start + i) % capacity` for
`i < length`; every other slot is uninitialized. -/

/-- Spec live-slot invariant for a queue state: every window slot is
initialized, and every physical slot outside the window is uninitialized. -/
def live_slot_inv {α : Type} (q : ArrayQueue α) : Prop :=
  (∀ i, i < q.length → (q.array (q.index i)).isSome = true) ∧
  (∀ j, j < q.cap → (∀ i, i < q.length → q.index i ≠ j) → q.array j = none)

instance {α : Type} [DecidableEq α] (q : ArrayQueue α) :
    Decidable (live_slot_inv q) := by
  unfold live_slot_inv
  infer_instance

/-- Observable success of a fallible push (`Result::is_ok`). -/
def res_ok : Except CapacityError Unit → Bool
  | Except.ok _ => true
  | Except.error _ => false

/-!  Concrete states used to evaluate the code on the claims' failing
inputs. -/

/-- State of a capacity-2 queue after `push_back 1; push_back 2; pop_front`:
`start = 1`, `length = 1`, slot 1 holds `2`, slot 0 is uninitialized. -/
def qWrap : ArrayQueue Nat :=
  (ArrayQueue.pop_front
    (ArrayQueue.push_back (ArrayQueue.push_back (ArrayQueue.new 2) 1).2 2).2).2

/-- State of a capacity-2 queue after `push_back 42; pop_front`:
empty with `start = 1`. -/
def qOff : ArrayQueue Nat :=
  (ArrayQueue.pop_front (ArrayQueue.push_back (ArrayQueue.new 2) 42).2).2

/-- Empty capacity-2 queue fresh from `new`. -/
def qEmpty : ArrayQueue Nat := ArrayQueue.new 2

/-- Capacity-2 queue holding the single element `7` at slot 0. -/
def qOne : ArrayQueue Nat := (ArrayQueue.push_back (ArrayQueue.new 2) 7).2

/-- Full capacity-2 queue holding `1, 2`. -/
def qFull : ArrayQueue Nat :=
  (ArrayQueue.push_back (ArrayQueue.push_back (ArrayQueue.new 2) 1).2 2).2

/-- Capacity-2 ArrayVec holding the single element `7`. -/
def vOne : ArrayVec Nat := (ArrayVec.push (ArrayVec.new 2 0) 7).2

/-- Full capacity-2 ArrayVec holding `1, 2`. -/
def vFull : ArrayVec Nat :=
  (ArrayVec.push (ArrayVec.push (ArrayVec.new 2 0) 1).2 2).2

/-!  Operation sequences and the abstract list model, for the FIFO and
refinement claims. -/

/-- Single-ended operation alphabet shared by the queue (`push_back` /
`pop_front`), the vec (`push` / `pop_front`) and the abstract list model:
`push x` enqueues at the back, `pop` dequeues at the front. -/
inductive QOp (α : Type)
  | push (x : α)
  | pop

/-- Observable outcome of one operation: whether a push succeeded, and the
value a pop returned.  For the queue a popped value is the moved slot
content (`some none` would be a moved-out uninitialized slot); the vec and
list models wrap their plain popped values with `Option.map some`. -/
inductive QOut (α : Type)
  | pushed (ok : Bool)
  | popped (x : Option (Option α))
deriving DecidableEq

/-- Running a sequence of operations on an ArrayQueue via `push_back` and
`pop_front`, collecting the observable outcomes. -/
def run_queue {α : Type} : ArrayQueue α → List (QOp α) → List (QOut α) × ArrayQueue α
  | q, [] => ([], q)
  | q, QOp.push x :: ops =>
    let r := q.push_back x
    let rest := run_queue r.2 ops
    (QOut.pushed (res_ok r.1) :: rest.1, rest.2)
  | q, QOp.pop :: ops =>
    let r := q.pop_front
    let rest := run_queue r.2 ops
    (QOut.popped r.1 :: rest.1, rest.2)

/-- Running a sequence of operations on an ArrayVec via `push` and
`pop_front` (with default value `d`), collecting the observable outcomes. -/
def run_vec {α : Type} (d : α) : ArrayVec α → List (QOp α) → List (QOut α) × ArrayVec α
  | v, [] => ([], v)
  | v, QOp.push x :: ops =>
    let r := v.push x
    let rest := run_vec d r.2 ops
    (QOut.pushed (res_ok r.1) :: rest.1, rest.2)
  | v, QOp.pop :: ops =>
    let r := v.pop_front d
    let rest := run_vec d r.2 ops
    (QOut.popped (r.1.map some) :: rest.1, rest.2)

/-- Abstract model of a capacity-`n` FIFO: a plain list of the live
elements in logical front-to-back order.  Push appends at the back unless
the list already holds `n` elements. -/
def abs_push {α : Type} (n : Nat) (l : List α) (x : α) : Bool × List α :=
  if l.length == n then (false, l) else (true, l ++ [x])

/-- Abstract pop: removes and returns the front element. -/
def abs_pop {α : Type} : List α → Option α × List α
  | [] => (none, [])
  | x :: xs => (some x, xs)

/-- Running a sequence of operations on the abstract capacity-`n` list
FIFO. -/
def run_abs {α : Type} (n : Nat) : List α → List (QOp α) → List (QOut α) × List α
  | l, [] => ([], l)
  | l, QOp.push x :: ops =>
    let r := abs_push n l x
    let rest := run_abs n r.2 ops
    (QOut.pushed r.1 :: rest.1, rest.2)
  | l, QOp.pop :: ops =>
    let r := abs_pop l
    let rest := run_abs n r.2 ops
    (QOut.popped (r.1.map some) :: rest.1, rest.2)

/-- Simulation invariant between a queue state and the abstract list of its
live elements in logical order: matching length, in-range bookkeeping
fields, and the window slot at logical offset `i` holds the `i`-th list
element. -/
def QInv {α : Type} (q : ArrayQueue α) (l : List α) : Prop :=
  q.length = l.length ∧ q.length ≤ q.cap ∧ (q.start < q.cap ∨ q.start = 0) ∧
  ∀ i, i < q.length → q.array (q.index i) = l[i]?

/-- Simulation invariant between an ArrayVec state and the abstract list of
its live elements. -/
def VInv {α : Type} (v : ArrayVec α) (l : List α) : Prop :=
  v.length = l.length ∧ v.length ≤ v.cap ∧ (v.start < v.cap ∨ v.start = 0) ∧
  ∀ i, i < v.length → some (v.array (v.index i)) = l[i]?

/-- Pushing a whole list of values with `push_back`, collecting each push's
success flag. -/
def push_all {α : Type} : ArrayQueue α → List α → List Bool × ArrayQueue α
  | q, [] => ([], q)
  | q, x :: xs =>
    let r := q.push_back x
    let rest := push_all r.2 xs
    (res_ok r.1 :: rest.1, rest.2)

/-- Popping `k` times with `pop_back`, collecting the popped values. -/
def pop_back_n {α : Type} : ArrayQueue α → Nat → List (Option (Option α)) × ArrayQueue α
  | q, 0 => ([], q)
  | q, k + 1 =>
    let r := q.pop_back
    let rest := pop_back_n r.2 k
    (r.1 :: rest.1, rest.2)

/-- Queue states reachable from `new` by any legal sequence of the four
mutating operations. -/
inductive QReach {α : Type} : ArrayQueue α → Prop
  | new (n : Nat) : QReach (ArrayQueue.new n)
  | push_back (q : ArrayQueue α) (x : α) : QReach q → QReach (q.push_back x).2
  | push_front (q : ArrayQueue α) (x : α) : QReach q → QReach (q.push_front x).2
  | pop_back (q : ArrayQueue α) : QReach q → QReach q.pop_back.2
  | pop_front (q : ArrayQueue α) : QReach q → QReach q.pop_front.2

/-- ArrayVec states reachable from `new` by any legal sequence of `push`
and `pop_front`. -/
inductive VReach {α : Type} : ArrayVec α → Prop
  | new (n : Nat) (d : α) : VReach (ArrayVec.new n d)
  | push (v : ArrayVec α) (x : α) : VReach v → VReach (v.push x).2
  | pop_front (v : ArrayVec α) (d : α) : VReach v → VReach (v.pop_front d).2

/-- Concrete wraparound script of the FIFO claim: push `1`, `2`, then 62
rounds of pop-front followed by push-back of `3`, `4`, ..., `64`. -/
def wrap_ops : List (QOp Nat) :=
  [QOp.push 1, QOp.push 2] ++
    (List.range 62).flatMap (fun k => [QOp.pop, QOp.push (k + 3)])

/-!  Theorems.  Helper lemmas first, then one theorem per claim. -/

/-- Window physical indices `(s + i) % n` are injective for offsets below
`n`. -/
theorem window_inj {s n i j : Nat} (hi : i < n) (hj : j < n)
    (h : (s + i) % n = (s + j) % n) : i = j := by
  have h2 : i % n = j % n := Nat.ModEq.add_left_cancel' s h
  calc i = i % n := (Nat.mod_eq_of_lt hi).symm
    _ = j % n := h2
    _ = j := Nat.mod_eq_of_lt hj

/-- Window physical indices of a live window of length at most the capacity
are pairwise distinct. -/
theorem window_nodup {s n len : Nat} (h : len ≤ n) :
    ((List.range len).map (fun i => (s + i) % n)).Nodup := by
  refine List.Nodup.map_on ?_ (List.nodup_range len)
  intro i hi j hj hij
  exact window_inj (lt_of_lt_of_le (List.mem_range.mp hi) h)
    (lt_of_lt_of_le (List.mem_range.mp hj) h) hij

/-- One step of the queue/list simulation: `push_back` succeeds exactly when
the abstract push does, and re-establishes the invariant against the
abstract push result. -/
theorem QInv_push_back {α : Type} {q : ArrayQueue α} {l : List α}
    (h : QInv q l) (x : α) :
    res_ok (q.push_back x).1 = (abs_push q.cap l x).1 ∧
    QInv (q.push_back x).2 (abs_push q.cap l x).2 ∧
    (q.push_back x).2.cap = q.cap := by
  obtain ⟨hlen, hle, hs, hwin⟩ := h
  by_cases hfull : q.length = q.cap
  · have h1 : q.is_full = true := by
      simp [ArrayQueue.is_full, ArrayQueue.len, ArrayQueue.capacity, hfull]
    have h2 : (l.length == q.cap) = true := by
      simp [← hlen, hfull]
    refine ⟨?_, ?_, ?_⟩ <;>
      simp [ArrayQueue.push_back, abs_push, h1, h2, res_ok]
    exact ⟨hlen, hle, hs, hwin⟩
  · have hlt : q.length < q.cap := lt_of_le_of_ne hle hfull
    have h1 : q.is_full = false := by
      simp [ArrayQueue.is_full, ArrayQueue.len, ArrayQueue.capacity]
      exact hfull
    have h2 : (l.length == q.cap) = false := by
      simp [← hlen]
      exact hfull
    refine ⟨?_, ?_, ?_⟩
    · simp [ArrayQueue.push_back, abs_push, h1, h2, res_ok]
    · simp only [ArrayQueue.push_back, abs_push, h1, h2, Bool.false_eq_true,
        if_false]
      refine ⟨?_, ?_, hs, ?_⟩
      · show q.length + 1 = (l ++ [x]).length
        simp [hlen]
      · show q.length + 1 ≤ q.cap
        omega
      intro i hi
      show Function.update q.array (q.index q.length) (some x) (q.index i)
          = (l ++ [x])[i]?
      rcases Nat.lt_succ_iff_lt_or_eq.mp hi with hi' | hi'
      · rw [Function.update_noteq, hwin i hi',
          List.getElem?_append_left (hlen ▸ hi')]
        intro heq
        exact absurd (window_inj (lt_trans hi' hlt) hlt heq) (Nat.ne_of_lt hi')
      · subst hi'
        rw [Function.update_same, hlen, List.getElem?_concat_length]
    · simp [ArrayQueue.push_back, h1]

/-- One step of the queue/list simulation: `pop_front` returns the abstract
front element and re-establishes the invariant against the abstract tail. -/
theorem QInv_pop_front {α : Type} {q : ArrayQueue α} {l : List α}
    (h : QInv q l) :
    q.pop_front.1 = (abs_pop l).1.map some ∧
    QInv q.pop_front.2 (abs_pop l).2 ∧
    q.pop_front.2.cap = q.cap := by
  obtain ⟨hlen, hle, hs, hwin⟩ := h
  cases l with
  | nil =>
    have h1 : q.is_empty = true := by
      simp [ArrayQueue.is_empty, ArrayQueue.len, hlen]
    refine ⟨?_, ?_, ?_⟩ <;>
      simp [ArrayQueue.pop_front, abs_pop, h1]
    exact ⟨hlen, hle, hs, hwin⟩
  | cons y ys =>
    have hlen' : q.length = ys.length + 1 := by simpa using hlen
    have hpos : 0 < q.length := by simp [hlen]
    have hcap : 0 < q.cap := lt_of_lt_of_le hpos hle
    have hstart : q.start < q.cap := by
      rcases hs with h' | h'
      · exact h'
      · omega
    have h1 : q.is_empty = false := by
      simp [ArrayQueue.is_empty, ArrayQueue.len]
      omega
    have hidx0 : q.index 0 = q.start := by
      simp [ArrayQueue.index, ArrayQueue.capacity, Nat.mod_eq_of_lt hstart]
    have h0 : q.array q.start = some y := by
      have := hwin 0 hpos
      rw [hidx0] at this
      simpa using this
    refine ⟨?_, ?_, ?_⟩
    · simp [ArrayQueue.pop_front, abs_pop, h1, h0]
    · simp only [ArrayQueue.pop_front, h1, Bool.false_eq_true, if_false,
        abs_pop]
      refine ⟨?_, ?_, ?_, ?_⟩
      · show q.length - 1 = ys.length
        omega
      · show q.length - 1 ≤ q.cap
        omega
      · exact Or.inl (Nat.mod_lt _ hcap)
      · intro i hi
        have hi' : i < q.length - 1 := hi
        have hisucc : i + 1 < q.length := by omega
        have hidx : ((q.start + 1) % q.capacity + i) % q.capacity
            = q.index (i + 1) := by
          simp [ArrayQueue.index, Nat.mod_add_mod, Nat.add_assoc,
            Nat.add_comm 1 i]
        show Function.update q.array q.start none
            (((q.start + 1) % q.capacity + i) % q.capacity) = ys[i]?
        rw [hidx, Function.update_noteq, hwin (i + 1) hisucc]
        · simp
        · intro heq
          have : q.index (i + 1) = q.index 0 := by rw [hidx0]; exact heq
          have := window_inj (i := i + 1) (j := 0)
            (lt_of_lt_of_le hisucc hle) hcap this
          omega
    · simp [ArrayQueue.pop_front, h1]

/-- The fresh queue simulates the empty abstract list. -/
theorem QInv_new {α : Type} (n : Nat) : QInv (ArrayQueue.new (α := α) n) [] := by
  refine ⟨rfl, Nat.zero_le n, Or.inr rfl, ?_⟩
  intro i hi
  exact absurd hi (Nat.not_lt_zero i)

/-- Whole-run simulation: starting from related states, the queue run and
the abstract list run produce identical observation sequences and end in
related states. -/
theorem run_queue_abs {α : Type} (ops : List (QOp α)) :
    ∀ (q : ArrayQueue α) (l : List α), QInv q l →
      (run_queue q ops).1 = (run_abs q.cap l ops).1 ∧
      QInv (run_queue q ops).2 (run_abs q.cap l ops).2 ∧
      (run_queue q ops).2.cap = q.cap := by
  induction ops with
  | nil =>
    intro q l h
    exact ⟨rfl, h, rfl⟩
  | cons op ops ih =>
    intro q l h
    cases op with
    | push x =>
      obtain ⟨ho, hi, hc⟩ := QInv_push_back h x
      obtain ⟨ro, ri, rc⟩ := ih _ _ hi
      rw [hc] at ro ri
      refine ⟨?_, ?_, ?_⟩
      · simp only [run_queue, run_abs]
        rw [ho, ro]
      · simpa only [run_queue, run_abs] using ri
      · simpa only [run_queue, run_abs, hc] using rc
    | pop =>
      obtain ⟨ho, hi, hc⟩ := QInv_pop_front h
      obtain ⟨ro, ri, rc⟩ := ih _ _ hi
      rw [hc] at ro ri
      refine ⟨?_, ?_, ?_⟩
      · simp only [run_queue, run_abs]
        rw [ho, ro]
      · simpa only [run_queue, run_abs] using ri
      · simpa only [run_queue, run_abs, hc] using rc

/-- One step of the vec/list simulation: `push` succeeds exactly when the
abstract push does, and re-establishes the invariant. -/
theorem VInv_push {α : Type} {v : ArrayVec α} {l : List α}
    (h : VInv v l) (x : α) :
    res_ok (v.push x).1 = (abs_push v.cap l x).1 ∧
    VInv (v.push x).2 (abs_push v.cap l x).2 ∧
    (v.push x).2.cap = v.cap := by
  obtain ⟨hlen, hle, hs, hwin⟩ := h
  by_cases hfull : v.length = v.cap
  · have h1 : (v.length == v.capacity) = true := by
      simp [ArrayVec.capacity, hfull]
    have h2 : (l.length == v.cap) = true := by
      simp [← hlen, hfull]
    refine ⟨?_, ?_, ?_⟩ <;>
      simp [ArrayVec.push, abs_push, h1, h2, res_ok]
    exact ⟨hlen, hle, hs, hwin⟩
  · have hlt : v.length < v.cap := lt_of_le_of_ne hle hfull
    have h1 : (v.length == v.capacity) = false := by
      simp [ArrayVec.capacity]
      exact hfull
    have h2 : (l.length == v.cap) = false := by
      simp [← hlen]
      exact hfull
    refine ⟨?_, ?_, ?_⟩
    · simp [ArrayVec.push, abs_push, h1, h2, res_ok]
    · simp only [ArrayVec.push, abs_push, h1, h2, Bool.false_eq_true,
        if_false]
      refine ⟨?_, ?_, hs, ?_⟩
      · show v.length + 1 = (l ++ [x]).length
        simp [hlen]
      · show v.length + 1 ≤ v.cap
        omega
      intro i hi
      show some (Function.update v.array (v.index v.length) x (v.index i))
          = (l ++ [x])[i]?
      rcases Nat.lt_succ_iff_lt_or_eq.mp hi with hi' | hi'
      · rw [Function.update_noteq, hwin i hi',
          List.getElem?_append_left (hlen ▸ hi')]
        intro heq
        exact absurd (window_inj (lt_trans hi' hlt) hlt heq) (Nat.ne_of_lt hi')
      · subst hi'
        rw [Function.update_same, hlen, List.getElem?_concat_length]
    · simp [ArrayVec.push, h1]

/-- One step of the vec/list simulation: `pop_front` returns the abstract
front element and re-establishes the invariant. -/
theorem VInv_pop_front {α : Type} {v : ArrayVec α} {l : List α}
    (h : VInv v l) (d : α) :
    (v.pop_front d).1 = (abs_pop l).1 ∧
    VInv (v.pop_front d).2 (abs_pop l).2 ∧
    (v.pop_front d).2.cap = v.cap := by
  obtain ⟨hlen, hle, hs, hwin⟩ := h
  cases l with
  | nil =>
    have h1 : (v.length == 0) = true := by simp [hlen]
    refine ⟨?_, ?_, ?_⟩ <;>
      simp [ArrayVec.pop_front, abs_pop, h1]
    exact ⟨hlen, hle, hs, hwin⟩
  | cons y ys =>
    have hlen' : v.length = ys.length + 1 := by simpa using hlen
    have hpos : 0 < v.length := by omega
    have hcap : 0 < v.cap := lt_of_lt_of_le hpos hle
    have hstart : v.start < v.cap := by
      rcases hs with h' | h'
      · exact h'
      · omega
    have h1 : (v.length == 0) = false := by
      simp
      omega
    have hidx0 : v.index 0 = v.start := by
      simp [ArrayVec.index, ArrayVec.capacity, Nat.mod_eq_of_lt hstart]
    have h0 : v.array v.start = y := by
      have := hwin 0 hpos
      rw [hidx0] at this
      simpa using this
    refine ⟨?_, ?_, ?_⟩
    · simp [ArrayVec.pop_front, abs_pop, h1, h0]
    · simp only [ArrayVec.pop_front, h1, Bool.false_eq_true, if_false,
        abs_pop]
      refine ⟨?_, ?_, ?_, ?_⟩
      · show v.length - 1 = ys.length
        omega
      · show v.length - 1 ≤ v.cap
        omega
      · exact Or.inl (Nat.mod_lt _ hcap)
      · intro i hi
        have hi' : i < v.length - 1 := hi
        have hisucc : i + 1 < v.length := by omega
        have hidx : ((v.start + 1) % v.capacity + i) % v.capacity
            = v.index (i + 1) := by
          simp [ArrayVec.index, Nat.mod_add_mod, Nat.add_assoc,
            Nat.add_comm 1 i]
        show some (Function.update v.array v.start d
            (((v.start + 1) % v.capacity + i) % v.capacity)) = ys[i]?
        rw [hidx, Function.update_noteq, hwin (i + 1) hisucc]
        · simp
        · intro heq
          have : v.index (i + 1) = v.index 0 := by rw [hidx0]; exact heq
          have := window_inj (i := i + 1) (j := 0)
            (lt_of_lt_of_le hisucc hle) hcap this
          omega
    · simp [ArrayVec.pop_front, h1]

/-- The fresh vec simulates the empty abstract list. -/
theorem VInv_new {α : Type} (n : Nat) (d : α) : VInv (ArrayVec.new n d) [] := by
  refine ⟨rfl, Nat.zero_le n, Or.inr rfl, ?_⟩
  intro i hi
  exact absurd hi (Nat.not_lt_zero i)

/-- Whole-run simulation for the vec: starting from related states, the vec
run and the abstract list run produce identical observation sequences and
end in related states. -/
theorem run_vec_abs {α : Type} (d : α) (ops : List (QOp α)) :
    ∀ (v : ArrayVec α) (l : List α), VInv v l →
      (run_vec d v ops).1 = (run_abs v.cap l ops).1 ∧
      VInv (run_vec d v ops).2 (run_abs v.cap l ops).2 ∧
      (run_vec d v ops).2.cap = v.cap := by
  induction ops with
  | nil =>
    intro v l h
    exact ⟨rfl, h, rfl⟩
  | cons op ops ih =>
    intro v l h
    cases op with
    | push x =>
      obtain ⟨ho, hi, hc⟩ := VInv_push h x
      obtain ⟨ro, ri, rc⟩ := ih _ _ hi
      rw [hc] at ro ri
      refine ⟨?_, ?_, ?_⟩
      · simp only [run_vec, run_abs]
        rw [ho, ro]
      · simpa only [run_vec, run_abs] using ri
      · simpa only [run_vec, run_abs, hc] using rc
    | pop =>
      obtain ⟨ho, hi, hc⟩ := VInv_pop_front h d
      obtain ⟨ro, ri, rc⟩ := ih _ _ hi
      rw [hc] at ro ri
      refine ⟨?_, ?_, ?_⟩
      · simp only [run_vec, run_abs]
        rw [ho, ro]
      · simpa only [run_vec, run_abs] using ri
      · simpa only [run_vec, run_abs, hc] using rc

/-- The queue's mutable-iterator traversal from a cursor with exactly enough
fuel visits the physical indices of the remaining window offsets in order. -/
theorem mut_iter_run_eq {α : Type} (q : ArrayQueue α) :
    ∀ fuel cursor, q.length = cursor + fuel →
      q.mut_iter_run fuel cursor
        = (List.range fuel).map (fun k => q.index (cursor + k)) := by
  intro fuel
  induction fuel with
  | zero =>
    intro cursor h
    simp [ArrayQueue.mut_iter_run]
  | succ fuel ih =>
    intro cursor h
    have hne : (cursor == q.length) = false := by
      simp
      omega
    have harg : (fun k => q.index (cursor + (k + 1)))
        = fun k => q.index (cursor + 1 + k) := by
      funext k
      congr 1
      omega
    simp only [ArrayQueue.mut_iter_run, ArrayQueue.mut_iter_next, hne,
      Bool.false_eq_true, if_false]
    rw [ih (cursor + 1) (by omega), List.range_succ_eq_map]
    simp only [List.map_cons, List.map_map]
    rw [show ((fun k => q.index (cursor + k)) ∘ Nat.succ)
        = fun k => q.index (cursor + (k + 1)) from rfl, harg]
    simp

/-- The vec's mutable-iterator traversal from a cursor with exactly enough
fuel visits the physical indices of the remaining window offsets in order. -/
theorem vec_mut_iter_run_eq {α : Type} (v : ArrayVec α) :
    ∀ fuel cursor, v.length = cursor + fuel →
      v.mut_iter_run fuel cursor
        = (List.range fuel).map (fun k => v.index (cursor + k)) := by
  intro fuel
  induction fuel with
  | zero =>
    intro cursor h
    simp [ArrayVec.mut_iter_run]
  | succ fuel ih =>
    intro cursor h
    have hne : (cursor == v.length) = false := by
      simp
      omega
    have harg : (fun k => v.index (cursor + (k + 1)))
        = fun k => v.index (cursor + 1 + k) := by
      funext k
      congr 1
      omega
    simp only [ArrayVec.mut_iter_run, ArrayVec.mut_iter_next, hne,
      Bool.false_eq_true, if_false]
    rw [ih (cursor + 1) (by omega), List.range_succ_eq_map]
    simp only [List.map_cons, List.map_map]
    rw [show ((fun k => v.index (cursor + k)) ∘ Nat.succ)
        = fun k => v.index (cursor + (k + 1)) from rfl, harg]
    simp

/-- Reading a list at every position of `range` recovers the list (wrapped
in `some`). -/
theorem range_map_read {α : Type} (l : List α) :
    (List.range l.length).map (fun i => l[i]?) = l.map some := by
  induction l with
  | nil => simp
  | cons x xs ih =>
    rw [List.length_cons, List.range_succ_eq_map]
    simp only [List.map_cons, List.map_map]
    rw [show ((fun i => (x :: xs)[i]?) ∘ Nat.succ)
        = fun i => xs[i]? from by funext i; simp]
    simp [ih]

/-- Dropping a queue state related to an abstract list destroys exactly the
live elements, each once. -/
theorem drop_destroyed_eq {α : Type} {q : ArrayQueue α} {l : List α}
    (h : QInv q l) : q.drop_destroyed = l.map some := by
  obtain ⟨hlen, hle, hs, hwin⟩ := h
  unfold ArrayQueue.drop_destroyed
  rw [mut_iter_run_eq q q.length 0 (by omega), List.map_map]
  rw [show (q.array ∘ fun k => q.index (0 + k))
      = fun k => q.array (q.index k) from by funext k; simp]
  rw [← range_map_read l, ← hlen]
  apply List.map_congr_left
  intro k hk
  exact hwin k (List.mem_range.mp hk)

/-- Pushing a block of values onto a queue related to an abstract list with
enough spare capacity: every push succeeds, the block is appended to the
abstract list, and `cap` and `start` are unchanged. -/
theorem push_all_sim {α : Type} (xs : List α) :
    ∀ (q : ArrayQueue α) (l : List α), QInv q l →
      l.length + xs.length ≤ q.cap →
      (push_all q xs).1 = List.replicate xs.length true ∧
      QInv (push_all q xs).2 (l ++ xs) ∧
      (push_all q xs).2.cap = q.cap ∧
      (push_all q xs).2.start = q.start := by
  induction xs with
  | nil =>
    intro q l h _
    refine ⟨rfl, by simpa using h, rfl, rfl⟩
  | cons x xs ih =>
    intro q l h hle
    have hlen : q.length = l.length := h.1
    have hnotfull : (l.length == q.cap) = false := by
      simp only [List.length_cons] at hle
      simp
      omega
    obtain ⟨ho, hi, hc⟩ := QInv_push_back h x
    have habs : abs_push q.cap l x = (true, l ++ [x]) := by
      simp [abs_push, hnotfull]
    rw [habs] at ho hi
    have hstart : (q.push_back x).2.start = q.start := by
      unfold ArrayQueue.push_back
      split <;> rfl
    obtain ⟨ra, rb, rc, rd⟩ := ih (q.push_back x).2 (l ++ [x]) hi
      (by rw [hc]
          simp only [List.length_append, List.length_cons,
            List.length_nil] at hle ⊢
          omega)
    refine ⟨?_, ?_, ?_, ?_⟩
    · simp only [push_all, ra, ho, List.length_cons, List.replicate_succ]
    · simpa only [push_all, List.append_assoc, List.singleton_append] using rb
    · simpa only [push_all, hc] using rc
    · simp only [push_all]
      rw [rd, hstart]

/-- Popping from the back of a queue whose window starts at physical slot 0:
`pop_back` happens to read the correct slot there, returning the last
element and re-establishing the invariant against the shortened list. -/
theorem QInv_pop_back_zero {α : Type} {q : ArrayQueue α} {us : List α}
    {x : α} (h : QInv q (us ++ [x])) (h0 : q.start = 0) :
    q.pop_back.1 = some (some x) ∧ QInv q.pop_back.2 us ∧
    q.pop_back.2.cap = q.cap ∧ q.pop_back.2.start = 0 := by
  obtain ⟨hlen, hle, hs, hwin⟩ := h
  have hlen' : q.length = us.length + 1 := by simpa using hlen
  have hpos : 0 < q.length := by omega
  have hcap : 0 < q.cap := lt_of_lt_of_le hpos hle
  have h1 : q.is_empty = false := by
    simp [ArrayQueue.is_empty, ArrayQueue.len]
    omega
  have hidx : ∀ i, i < q.length → q.index i = i := by
    intro i hi
    simp [ArrayQueue.index, ArrayQueue.capacity, h0,
      Nat.mod_eq_of_lt (lt_of_lt_of_le hi hle)]
  have hval : q.array (q.length - 1) = some x := by
    have hw := hwin (q.length - 1) (by omega)
    rw [hidx _ (by omega)] at hw
    rw [hw, show q.length - 1 = us.length from by omega,
      List.getElem?_concat_length]
  refine ⟨?_, ?_, ?_, ?_⟩
  · simp [ArrayQueue.pop_back, h1, hval]
  · simp only [ArrayQueue.pop_back, h1, Bool.false_eq_true, if_false]
    refine ⟨?_, ?_, Or.inr h0, ?_⟩
    · show q.length - 1 = us.length
      omega
    · show q.length - 1 ≤ q.cap
      omega
    · intro i hi
      have hi' : i < us.length := by
        simpa [hlen'] using hi
      show Function.update q.array (q.length - 1) none
          ((q.start + i) % q.capacity) = us[i]?
      have hqi : (q.start + i) % q.capacity = i := hidx i (by omega)
      have hw := hwin i (by omega)
      rw [hidx i (by omega)] at hw
      rw [hqi, Function.update_noteq (by omega), hw,
        List.getElem?_append_left hi']
  · simp [ArrayQueue.pop_back, h1]
  · simp only [ArrayQueue.pop_back, h1, Bool.false_eq_true, if_false]
    exact h0

/-- Popping the whole suffix `ws` from the back of a start-0 queue related
to `us ++ ws`: the pops return the suffix values back-to-front and leave a
state related to `us`. -/
theorem pop_back_n_sim {α : Type} (ws : List α) :
    ∀ (q : ArrayQueue α) (us : List α), QInv q (us ++ ws) → q.start = 0 →
      (pop_back_n q ws.length).1 = ws.reverse.map (fun x => some (some x)) ∧
      QInv (pop_back_n q ws.length).2 us ∧
      (pop_back_n q ws.length).2.start = 0 := by
  induction ws using List.reverseRecOn with
  | nil =>
    intro q us h h0
    exact ⟨rfl, by simpa using h, h0⟩
  | append_singleton ws w ih =>
    intro q us h h0
    rw [← List.append_assoc] at h
    obtain ⟨r1, hinv, hcap, hstart⟩ := QInv_pop_back_zero h h0
    obtain ⟨ra, rb, rc⟩ := ih q.pop_back.2 us hinv hstart
    rw [show (ws ++ [w]).length = ws.length + 1 from by simp]
    refine ⟨?_, rb, rc⟩
    simp only [pop_back_n, r1, ra, List.reverse_append, List.reverse_cons,
      List.reverse_nil, List.nil_append, List.singleton_append, List.map_cons]

/-- Every reachable queue state keeps `start` in range (or zero) and
`length` at most the capacity. -/
theorem QReach_bounds {α : Type} {q : ArrayQueue α} (h : QReach q) :
    (q.start < q.cap ∨ q.start = 0) ∧ q.length ≤ q.cap := by
  induction h with
  | new n => exact ⟨Or.inr rfl, Nat.zero_le n⟩
  | push_back q x hq ih =>
    by_cases hfull : q.length = q.cap
    · have h1 : q.is_full = true := by
        simp [ArrayQueue.is_full, ArrayQueue.len, ArrayQueue.capacity, hfull]
      simpa [ArrayQueue.push_back, h1] using ih
    · have h1 : q.is_full = false := by
        simp [ArrayQueue.is_full, ArrayQueue.len, ArrayQueue.capacity]
        exact hfull
      simp only [ArrayQueue.push_back, h1, Bool.false_eq_true, if_false]
      exact ⟨ih.1, by omega⟩
  | push_front q x hq ih =>
    by_cases hfull : q.length = q.cap
    · have h1 : q.is_full = true := by
        simp [ArrayQueue.is_full, ArrayQueue.len, ArrayQueue.capacity, hfull]
      simpa [ArrayQueue.push_front, h1] using ih
    · have h1 : q.is_full = false := by
        simp [ArrayQueue.is_full, ArrayQueue.len, ArrayQueue.capacity]
        exact hfull
      have hcap : 0 < q.cap := by omega
      simp only [ArrayQueue.push_front, h1, Bool.false_eq_true, if_false]
      exact ⟨Or.inl (Nat.mod_lt _ hcap), by omega⟩
  | pop_back q hq ih =>
    by_cases hempty : q.length = 0
    · have h1 : q.is_empty = true := by
        simp [ArrayQueue.is_empty, ArrayQueue.len, hempty]
      simpa [ArrayQueue.pop_back, h1] using ih
    · have h1 : q.is_empty = false := by
        simp [ArrayQueue.is_empty, ArrayQueue.len]
        exact hempty
      simp only [ArrayQueue.pop_back, h1, Bool.false_eq_true, if_false]
      exact ⟨ih.1, by omega⟩
  | pop_front q hq ih =>
    by_cases hempty : q.length = 0
    · have h1 : q.is_empty = true := by
        simp [ArrayQueue.is_empty, ArrayQueue.len, hempty]
      simpa [ArrayQueue.pop_front, h1] using ih
    · have h1 : q.is_empty = false := by
        simp [ArrayQueue.is_empty, ArrayQueue.len]
        exact hempty
      have hcap : 0 < q.cap := by
        have := ih.2
        omega
      simp only [ArrayQueue.pop_front, h1, Bool.false_eq_true, if_false]
      exact ⟨Or.inl (Nat.mod_lt _ hcap), by omega⟩

/-- Every reachable vec state keeps `start` in range (or zero) and `length`
at most the capacity. -/
theorem VReach_bounds {α : Type} {v : ArrayVec α} (h : VReach v) :
    (v.start < v.cap ∨ v.start = 0) ∧ v.length ≤ v.cap := by
  induction h with
  | new n d => exact ⟨Or.inr rfl, Nat.zero_le n⟩
  | push v x hv ih =>
    by_cases hfull : v.length = v.cap
    · have h1 : (v.length == v.capacity) = true := by
        simp [ArrayVec.capacity, hfull]
      simpa [ArrayVec.push, h1] using ih
    · have h1 : (v.length == v.capacity) = false := by
        simp [ArrayVec.capacity]
        exact hfull
      simp only [ArrayVec.push, h1, Bool.false_eq_true, if_false]
      exact ⟨ih.1, by omega⟩
  | pop_front v d hv ih =>
    by_cases hempty : v.length = 0
    · have h1 : (v.length == 0) = true := by simp [hempty]
      simpa [ArrayVec.pop_front, h1] using ih
    · have h1 : (v.length == 0) = false := by
        simp
        exact hempty
      have hcap : 0 < v.cap := by
        have := ih.2
        omega
      simp only [ArrayVec.pop_front, h1, Bool.false_eq_true, if_false]
      exact ⟨Or.inl (Nat.mod_lt _ hcap), by omega⟩

/-- C1: the claim says `pop_back` on a non-empty state returns the value at
physical index `(start + length - 1) mod N` and marks that slot
uninitialized.  Evaluating the code on the reachable state `qWrap`
(`start = 1`, `length = 1`, `N = 2`): the slot at
`(start + length - 1) mod N = 1` holds `2`, but `pop_back` instead moves out
physical slot `length - 1 = 0`, which is uninitialized (it returns
`some none`, an uninitialized read), and leaves slot 1 initialized.  The
`start`-unchanged and `length`-decrement parts do hold. -/
theorem C1_pop_back_reads_wrong_slot :
    qWrap.array (qWrap.index (qWrap.length - 1)) = some 2 ∧
    qWrap.pop_back.1 = some none ∧
    qWrap.pop_back.1 ≠ some (some 2) ∧
    (qWrap.pop_back.2.array (qWrap.index (qWrap.length - 1)) = some 2) ∧
    qWrap.pop_back.2.start = qWrap.start ∧
    qWrap.pop_back.2.length = qWrap.length - 1 := by
  decide

/-- C2: the claim says every operation preserves the live-slot invariant.
Evaluating the code: the reachable state `qWrap` satisfies the invariant, but
the state after `pop_back` does not (slot 1 still holds a live value while
the window is empty, and the uninitialized slot 0 was moved out and returned,
to be destroyed by the caller). -/
theorem C2_pop_back_breaks_live_slot_inv :
    live_slot_inv qWrap ∧
    ¬ live_slot_inv qWrap.pop_back.2 ∧
    qWrap.pop_back.1 = some none := by
  decide

/-- C3: the claim says `push_back x` then `pop_back` returns exactly `x` on
every non-full state.  Evaluating the code on the reachable non-full state
`qOff` (`start = 1`, `length = 0`, `N = 2`): pushing `7` stores it at slot 1,
but `pop_back` moves out physical slot `length - 1 = 0`, which is
uninitialized, so the popped value is an uninitialized read rather than `7`.
The length does return to its prior value. -/
theorem C3_push_pop_back_not_identity :
    qOff.is_full = false ∧
    res_ok (qOff.push_back 7).1 = true ∧
    (qOff.push_back 7).2.pop_back.1 = some none ∧
    (qOff.push_back 7).2.pop_back.1 ≠ some (some 7) ∧
    (qOff.push_back 7).2.pop_back.2.length = qOff.length := by
  decide

/-- C4: the claim says read-only iteration is total, yields exactly `length`
elements (zero for the empty buffer) and never underflows.  Evaluating the
code: on the empty queue `qEmpty`, `into_iter` computes
`last = len - 1 = 0 - 1`, which underflows `usize` (panic in debug builds;
the wrapping model gives `2 ^ 64 - 1`), so the iterator is not exhausted and
`next` yields the content of an uninitialized slot instead of stopping at
zero elements.  Moreover on the one-element queue `qOne` a pure backward
traversal underflows `last` after yielding the single element, so a second
`next_back` again yields an uninitialized slot instead of `none`. -/
theorem C4_iterator_empty_underflow :
    qEmpty.length = 0 ∧
    (ArrayQueue.into_iter qEmpty).exhausted = false ∧
    (ArrayQueue.iter_next qEmpty (ArrayQueue.into_iter qEmpty)).1 = some none ∧
    (ArrayQueue.iter_next_back qOne
      (ArrayQueue.iter_next_back qOne (ArrayQueue.into_iter qOne)).2).1
      = some none := by
  decide

/-- C5: pushing `N` values into a fresh capacity-`N` queue succeeds `N`
times and transfers ownership of each pushed value to the buffer (the
`forget(replace(...))` write destroys nothing); dropping the full buffer
then destroys exactly the `N` pushed elements, each once and none of them
uninitialized.  After the `N` pushes, `N` `pop_back`s move every element
out to the caller (`N` caller-side destructions, none of them an
uninitialized slot), and dropping the now-empty buffer destroys nothing
further. -/
theorem C5_push_drop_destruction_counts (α : Type) (vs : List α) :
    (push_all (ArrayQueue.new vs.length) vs).1 = List.replicate vs.length true ∧
    ArrayQueue.drop_destroyed (push_all (ArrayQueue.new vs.length) vs).2
      = vs.map some ∧
    (ArrayQueue.drop_destroyed (push_all (ArrayQueue.new vs.length) vs).2).length
      = vs.length ∧
    (pop_back_n (push_all (ArrayQueue.new vs.length) vs).2 vs.length).1
      = vs.reverse.map (fun x => some (some x)) ∧
    ArrayQueue.drop_destroyed
      (pop_back_n (push_all (ArrayQueue.new vs.length) vs).2 vs.length).2
      = [] := by
  obtain ⟨h1, h2, h3, h4⟩ :=
    push_all_sim vs (ArrayQueue.new vs.length) [] (QInv_new _)
      (by simp [ArrayQueue.new])
  rw [List.nil_append] at h2
  have hd := drop_destroyed_eq h2
  have h2' : QInv (push_all (ArrayQueue.new vs.length) vs).2 ([] ++ vs) := by
    simpa using h2
  obtain ⟨p1, p2, p3⟩ :=
    pop_back_n_sim vs (push_all (ArrayQueue.new vs.length) vs).2 [] h2' h4
  refine ⟨h1, hd, by simp [hd], p1, ?_⟩
  simpa using drop_destroyed_eq p2

/-- C6: `push_back`, `push_front` and the vec's `push` return CapacityError
exactly when the buffer is full (`length = N`), and a rejected push leaves
the state — hence also `len`, `first` and `last` — completely unchanged. -/
theorem C6_full_push_rejects_without_mutation :
    ∀ (α : Type) (q : ArrayQueue α) (x : α) (v : ArrayVec α),
      ((q.push_back x).1 = Except.error CapacityError.mk ↔ q.length = q.cap) ∧
      ((q.push_front x).1 = Except.error CapacityError.mk ↔ q.length = q.cap) ∧
      (q.length = q.cap →
        (q.push_back x).2 = q ∧ (q.push_front x).2 = q ∧
        (q.push_back x).2.len = q.len ∧ (q.push_back x).2.first = q.first ∧
        (q.push_back x).2.last = q.last ∧
        (q.push_front x).2.len = q.len ∧ (q.push_front x).2.first = q.first ∧
        (q.push_front x).2.last = q.last) ∧
      ((v.push x).1 = Except.error CapacityError.mk ↔ v.length = v.cap) ∧
      (v.length = v.cap → (v.push x).2 = v ∧ (v.push x).2.len = v.len) := by
  intro α q x v
  by_cases hfull : q.length = q.cap
  all_goals by_cases hvfull : v.length = v.cap
  all_goals
    first
    | (have h1 : q.is_full = true := by
        simp [ArrayQueue.is_full, ArrayQueue.len, ArrayQueue.capacity, hfull])
    | (have h1 : q.is_full = false := by
        simp [ArrayQueue.is_full, ArrayQueue.len, ArrayQueue.capacity]
        exact hfull)
  all_goals
    first
    | (have h2 : (v.length == v.capacity) = true := by
        simp [ArrayVec.capacity, hvfull])
    | (have h2 : (v.length == v.capacity) = false := by
        simp [ArrayVec.capacity]
        exact hvfull)
  all_goals
    simp [ArrayQueue.push_back, ArrayQueue.push_front, ArrayVec.push,
      ArrayVec.capacity, ArrayVec.len, h1, h2, hfull, hvfull]

/-- C6 witness at a concrete full queue and full vec. -/
theorem C6_full_push_rejects_without_mutation_witness :
    (qFull.push_back 5).1 = Except.error CapacityError.mk ∧
    (qFull.push_back 5).2 = qFull ∧
    (qFull.push_front 6).1 = Except.error CapacityError.mk ∧
    (vFull.push 5).1 = Except.error CapacityError.mk ∧
    (vFull.push 5).2 = vFull :=
  ⟨(C6_full_push_rejects_without_mutation Nat qFull 5 vFull).1.mpr (by decide),
   ((C6_full_push_rejects_without_mutation Nat qFull 5 vFull).2.2.1
     (by decide)).1,
   (C6_full_push_rejects_without_mutation Nat qFull 6 vFull).2.1.mpr
     (by decide),
   ((C6_full_push_rejects_without_mutation Nat qFull 5 vFull).2.2.2.1).mpr
     (by decide),
   ((C6_full_push_rejects_without_mutation Nat qFull 5 vFull).2.2.2.2
     (by decide)).1⟩

/-- C7: interleaved `push_back`/`pop_front` sequences behave exactly like
the abstract capacity-bounded list FIFO (so pop-front always returns values
in push order, across arbitrary wraparound), and concretely, on a
capacity-2 queue, pushing `1, 2` and then alternately popping the front and
pushing `3, ..., 64` at the back pops `1, 2, ..., 62` in order. -/
theorem C7_fifo_order_across_wraparound :
    (∀ (α : Type) (q : ArrayQueue α) (l : List α) (ops : List (QOp α)),
        QInv q l → (run_queue q ops).1 = (run_abs q.cap l ops).1) ∧
    (run_queue (ArrayQueue.new 2) wrap_ops).1 =
      [QOut.pushed true, QOut.pushed true] ++
        (List.range 62).flatMap
          (fun k => [QOut.popped (some (some (k + 1))), QOut.pushed true]) := by
  constructor
  · intro α q l ops h
    exact (run_queue_abs ops q l h).1
  · rw [(run_queue_abs wrap_ops (ArrayQueue.new 2) [] (QInv_new 2)).1]
    decide

/-- C7 witness: the general FIFO-refinement part applied at a concrete
state and operation sequence. -/
theorem C7_fifo_order_across_wraparound_witness :
    QInv (ArrayQueue.new 2 : ArrayQueue Nat) [] ∧
    (run_queue (ArrayQueue.new 2 : ArrayQueue Nat)
        [QOp.pop, QOp.push 5, QOp.push 6, QOp.pop]).1
      = (run_abs 2 [] [QOp.pop, QOp.push 5, QOp.push 6, QOp.pop]).1 :=
  ⟨QInv_new 2,
   C7_fifo_order_across_wraparound.1 Nat (ArrayQueue.new 2) []
     [QOp.pop, QOp.push 5, QOp.push 6, QOp.pop] (QInv_new 2)⟩

/-- C8: one complete mutable-iterator traversal visits exactly the `length`
window slots `(start + i) mod N` for `i < length`, in order, and these
physical indices are pairwise distinct — no slot is yielded twice and no
two yielded references alias.  This holds for the queue and for the vec. -/
theorem C8_mut_iter_yields_each_slot_once :
    (∀ (α : Type) (q : ArrayQueue α), q.length ≤ q.cap →
        q.mut_iter_run q.length 0 = (List.range q.length).map q.index ∧
        (q.mut_iter_run q.length 0).length = q.length ∧
        (q.mut_iter_run q.length 0).Nodup) ∧
    (∀ (α : Type) (v : ArrayVec α), v.length ≤ v.cap →
        v.mut_iter_run v.length 0 = (List.range v.length).map v.index ∧
        (v.mut_iter_run v.length 0).length = v.length ∧
        (v.mut_iter_run v.length 0).Nodup) := by
  constructor
  · intro α q h
    have heq : q.mut_iter_run q.length 0
        = (List.range q.length).map q.index := by
      rw [mut_iter_run_eq q q.length 0 (by omega)]
      apply List.map_congr_left
      intro k hk
      simp
    refine ⟨heq, by simp [heq], ?_⟩
    rw [heq]
    exact window_nodup h
  · intro α v h
    have heq : v.mut_iter_run v.length 0
        = (List.range v.length).map v.index := by
      rw [vec_mut_iter_run_eq v v.length 0 (by omega)]
      apply List.map_congr_left
      intro k hk
      simp
    refine ⟨heq, by simp [heq], ?_⟩
    rw [heq]
    exact window_nodup h

/-- C8 witness at concrete queue and vec states. -/
theorem C8_mut_iter_yields_each_slot_once_witness :
    qWrap.length ≤ qWrap.cap ∧ (qWrap.mut_iter_run qWrap.length 0).Nodup ∧
    vOne.length ≤ vOne.cap ∧ (vOne.mut_iter_run vOne.length 0).Nodup :=
  ⟨by decide,
   (C8_mut_iter_yields_each_slot_once.1 Nat qWrap (by decide)).2.2,
   by decide,
   (C8_mut_iter_yields_each_slot_once.2 Nat vOne (by decide)).2.2⟩

/-- C9: the vec refines the queue on the shared single-ended interface: for
every operation sequence, every capacity and every default value, `push` /
`pop_front` on a fresh ArrayVec produce exactly the same success flags,
popped values and final length as `push_back` / `pop_front` on a fresh
ArrayQueue of the same capacity. -/
theorem C9_vec_refines_queue :
    ∀ (α : Type) (n : Nat) (d : α) (ops : List (QOp α)),
      (run_queue (ArrayQueue.new n) ops).1
        = (run_vec d (ArrayVec.new n d) ops).1 ∧
      (run_queue (ArrayQueue.new n) ops).2.length
        = (run_vec d (ArrayVec.new n d) ops).2.length := by
  intro α n d ops
  obtain ⟨qo, qi, _⟩ := run_queue_abs ops (ArrayQueue.new n) [] (QInv_new n)
  obtain ⟨vo, vi, _⟩ := run_vec_abs d ops (ArrayVec.new n d) [] (VInv_new n d)
  constructor
  · rw [qo, vo]
    rfl
  · rw [qi.1, vi.1]
    rfl

/-- C10: every queue state reachable from `new` (and every vec state
reachable from `new`) with positive capacity `N` keeps `start < N` and
`length ≤ N`, so every physical index computed by the `index` function is
below `N`, and `pop_back`'s direct access at `length - 1` is also in
bounds. -/
theorem C10_reachable_states_access_in_bounds :
    (∀ (α : Type) (q : ArrayQueue α), QReach q → 0 < q.cap →
        q.start < q.cap ∧ q.length ≤ q.cap ∧ (∀ i, q.index i < q.cap) ∧
        (q.length ≠ 0 → q.length - 1 < q.cap)) ∧
    (∀ (α : Type) (v : ArrayVec α), VReach v → 0 < v.cap →
        v.start < v.cap ∧ v.length ≤ v.cap ∧ ∀ i, v.index i < v.cap) := by
  constructor
  · intro α q hq hcap
    obtain ⟨hs, hl⟩ := QReach_bounds hq
    have hstart : q.start < q.cap := by
      rcases hs with h' | h'
      · exact h'
      · omega
    exact ⟨hstart, hl, fun i => Nat.mod_lt _ hcap, fun h => by omega⟩
  · intro α v hv hcap
    obtain ⟨hs, hl⟩ := VReach_bounds hv
    have hstart : v.start < v.cap := by
      rcases hs with h' | h'
      · exact h'
      · omega
    exact ⟨hstart, hl, fun i => Nat.mod_lt _ hcap⟩

/-- C10 witness at concrete reachable states. -/
theorem C10_reachable_states_access_in_bounds_witness :
    QReach qOne ∧ 0 < qOne.cap ∧ qOne.start < qOne.cap ∧
    qOne.length ≤ qOne.cap ∧ qOne.index 5 < qOne.cap ∧
    VReach vOne ∧ vOne.start < vOne.cap :=
  have hq : QReach qOne := QReach.push_back _ 7 (QReach.new 2)
  have hv : VReach vOne := VReach.push _ 7 (VReach.new 2 0)
  ⟨hq, by decide,
   (C10_reachable_states_access_in_bounds.1 Nat qOne hq (by decide)).1,
   (C10_reachable_states_access_in_bounds.1 Nat qOne hq (by decide)).2.1,
   (C10_reachable_states_access_in_bounds.1 Nat qOne hq (by decide)).2.2.1 5,
   hv,
   (C10_reachable_states_access_in_bounds.2 Nat vOne hv (by decide)).1⟩

end FixedSizeVector
